import Mathlib

/-!
Shallow embedding of the gpu_linked_list repository (src/src/main.rs): a doubly
linked list whose nodes live behind raw pointers, with each element's value
held in a separately allocated mapped memory block (GpuBox).

Pointers are modelled as natural-number addresses into an explicit heap
(a function from addresses to optional nodes); allocation hands out fresh
addresses from a counter and deallocation removes the binding.  The GPU
memory cell stores exactly one value of type T and hands it back on
extraction, so it is modelled as a wrapper around the value; the Vulkan
device handle plays no role in the list logic and is omitted from the state.
-/

namespace GpuLinkedList

/-- Model of GpuBox (main.rs lines 26-61): one mapped region holding exactly
one value of type T.  The region only ever stores the value and returns it,
so the model keeps the value itself. -/
structure GpuBox (T : Type) where
  inner : T

/-- GpuBox::new writes the value into a freshly allocated mapped region. -/
def GpuBox.new {T : Type} (data : T) : GpuBox T := ⟨data⟩

/-- GpuBox::into_inner reads the value out of the region (ptr::read). -/
def GpuBox.into_inner {T : Type} (b : GpuBox T) : T := b.inner

/-- GpuBox::as_ref returns (a reference to) the stored value. -/
def GpuBox.as_ref {T : Type} (b : GpuBox T) : T := b.inner

/-- Model of Node (main.rs lines 63-67): prev and next raw pointers are
optional heap addresses, data is the GpuBox value cell. -/
structure Node (T : Type) where
  prev : Option Nat
  next : Option Nat
  data : GpuBox T

/-- Model of LinkedList (main.rs lines 18-24).  The heap and the fresh
address counter make the raw-pointer store explicit; the device field is
omitted (it only feeds GpuBox allocation, which the model keeps pure). -/
structure LinkedList (T : Type) where
  head : Option Nat
  tail : Option Nat
  len : Nat
  heap : Nat → Option (Node T)
  nextAddr : Nat

/-- Heap update at one address (a raw pointer write or a free). -/
def hupdate {T : Type} (h : Nat → Option (Node T)) (a : Nat) (v : Option (Node T)) :
    Nat → Option (Node T) :=
  fun b => if b = a then v else h b

/-- LinkedList::with_device (main.rs lines 85-93): head and tail absent,
len 0, empty heap. -/
def LinkedList.with_device (T : Type) : LinkedList T :=
  { head := none, tail := none, len := 0, heap := fun _ => none, nextAddr := 0 }

/-- LinkedList::push_back (main.rs macro push_pop_impl instantiated at
lines 148: new_node_from = head, old_node_from = tail, new_node_dir = next,
old_node_dir = prev).  A new node with prev = old tail is allocated at a
fresh address; if a tail existed its next pointer is set to the new node,
otherwise head is set; tail becomes the new node and len increments. -/
def LinkedList.push_back {T : Type} (s : LinkedList T) (data : T) : LinkedList T :=
  let a := s.nextAddr
  let newNode : Node T := { prev := s.tail, next := none, data := GpuBox.new data }
  let h1 := hupdate s.heap a (some newNode)
  match s.tail with
  | some t =>
      { head := s.head, tail := some a, len := s.len + 1,
        heap := hupdate h1 t ((h1 t).map fun n => { n with next := some a }),
        nextAddr := a + 1 }
  | none =>
      { head := some a, tail := some a, len := s.len + 1, heap := h1, nextAddr := a + 1 }

/-- LinkedList::push_front (main.rs macro instantiated at line 149 with the
roles of head/tail and prev/next swapped). -/
def LinkedList.push_front {T : Type} (s : LinkedList T) (data : T) : LinkedList T :=
  let a := s.nextAddr
  let newNode : Node T := { prev := none, next := s.head, data := GpuBox.new data }
  let h1 := hupdate s.heap a (some newNode)
  match s.head with
  | some t =>
      { head := some a, tail := s.tail, len := s.len + 1,
        heap := hupdate h1 t ((h1 t).map fun n => { n with prev := some a }),
        nextAddr := a + 1 }
  | none =>
      { head := some a, tail := some a, len := s.len + 1, heap := h1, nextAddr := a + 1 }

/-- LinkedList::pop_back (main.rs macro, lines 129-142, back instantiation):
if tail is present, take that node (Box::from_raw frees it, modelled by
removing its binding), move tail to its prev, clear the new tail's next
pointer (or clear head if the list became empty), decrement len and return
the extracted value.  Dereferencing a tail pointer whose node is not in the
heap would be undefined behaviour in the source; that branch is unreachable
for states satisfying the representation invariant and the model returns
the state unchanged there. -/
def LinkedList.pop_back {T : Type} (s : LinkedList T) : Option T × LinkedList T :=
  match s.tail with
  | none => (none, s)
  | some t =>
    match s.heap t with
    | none => (none, s)
    | some oldNode =>
      let h1 := hupdate s.heap t none
      match oldNode.prev with
      | some p =>
          (some oldNode.data.into_inner,
           { head := s.head, tail := some p, len := s.len - 1,
             heap := hupdate h1 p ((h1 p).map fun n => { n with next := none }),
             nextAddr := s.nextAddr })
      | none =>
          (some oldNode.data.into_inner,
           { head := none, tail := none, len := s.len - 1, heap := h1,
             nextAddr := s.nextAddr })

/-- LinkedList::pop_front (main.rs macro, front instantiation). -/
def LinkedList.pop_front {T : Type} (s : LinkedList T) : Option T × LinkedList T :=
  match s.head with
  | none => (none, s)
  | some t =>
    match s.heap t with
    | none => (none, s)
    | some oldNode =>
      let h1 := hupdate s.heap t none
      match oldNode.next with
      | some p =>
          (some oldNode.data.into_inner,
           { head := some p, tail := s.tail, len := s.len - 1,
             heap := hupdate h1 p ((h1 p).map fun n => { n with prev := none }),
             nextAddr := s.nextAddr })
      | none =>
          (some oldNode.data.into_inner,
           { head := none, tail := none, len := s.len - 1, heap := h1,
             nextAddr := s.nextAddr })

/-- Model of Iter (main.rs lines 171-176): snapshot of head, tail and len.
The heap it walks is passed to each step (the Rust iterator borrows the
list, whose heap cannot change while the borrow is alive). -/
structure Iter (T : Type) where
  head : Option Nat
  tail : Option Nat
  len : Nat

/-- LinkedList::iter (main.rs lines 99-106). -/
def LinkedList.iter {T : Type} (s : LinkedList T) : Iter T :=
  { head := s.head, tail := s.tail, len := s.len }

/-- Iterator::next for Iter (main.rs lines 190-201): if len is 0 yield
nothing, otherwise read the node at head, advance head to its next pointer,
decrement len and yield the value.  As in pop, a dangling head pointer
would be undefined behaviour in the source and is modelled as yielding
nothing. -/
def Iter.next {T : Type} (heap : Nat → Option (Node T)) (it : Iter T) :
    Option T × Iter T :=
  if it.len = 0 then (none, it)
  else
    match it.head with
    | none => (none, it)
    | some a =>
      match heap a with
      | none => (none, it)
      | some node =>
          (some node.data.as_ref, { head := node.next, tail := it.tail, len := it.len - 1 })

/-- DoubleEndedIterator::next_back for Iter (main.rs lines 211-222). -/
def Iter.next_back {T : Type} (heap : Nat → Option (Node T)) (it : Iter T) :
    Option T × Iter T :=
  if it.len = 0 then (none, it)
  else
    match it.tail with
    | none => (none, it)
    | some a =>
      match heap a with
      | none => (none, it)
      | some node =>
          (some node.data.as_ref, { head := it.head, tail := node.prev, len := it.len - 1 })

/-- Iterator::size_hint for Iter (main.rs lines 204-206). -/
def Iter.size_hint {T : Type} (it : Iter T) : Nat × Option Nat := (it.len, some it.len)

/-- One mutating list operation. -/
inductive Op (T : Type) where
  | push_back (v : T)
  | push_front (v : T)
  | pop_back
  | pop_front

/-- Apply one operation, discarding any popped value. -/
def applyOp {T : Type} (s : LinkedList T) : Op T → LinkedList T
  | .push_back v => s.push_back v
  | .push_front v => s.push_front v
  | .pop_back => (s.pop_back).2
  | .pop_front => (s.pop_front).2

/-- Run a sequence of operations. -/
def runOps {T : Type} (s : LinkedList T) (ops : List (Op T)) : LinkedList T :=
  ops.foldl applyOp s

/-- List states reachable from a fresh list by some operation sequence. -/
def Reachable {T : Type} (s : LinkedList T) : Prop :=
  ∃ ops : List (Op T), runOps (LinkedList.with_device T) ops = s

/-- Run a sequence of operations, also collecting each pop's result. -/
def runTrace {T : Type} : LinkedList T → List (Op T) → LinkedList T × List (Option T)
  | s, [] => (s, [])
  | s, Op.push_back v :: ops => runTrace (s.push_back v) ops
  | s, Op.push_front v :: ops => runTrace (s.push_front v) ops
  | s, Op.pop_back :: ops =>
      let r := s.pop_back
      let rest := runTrace r.2 ops
      (rest.1, r.1 :: rest.2)
  | s, Op.pop_front :: ops =>
      let r := s.pop_front
      let rest := runTrace r.2 ops
      (rest.1, r.1 :: rest.2)

/-- Number of push operations in a sequence. -/
def pushCount {T : Type} : List (Op T) → Nat
  | [] => 0
  | Op.push_back _ :: ops => pushCount ops + 1
  | Op.push_front _ :: ops => pushCount ops + 1
  | Op.pop_back :: ops => pushCount ops
  | Op.pop_front :: ops => pushCount ops

/-- Number of pop operations in a sequence. -/
def popCount {T : Type} : List (Op T) → Nat
  | [] => 0
  | Op.push_back _ :: ops => popCount ops
  | Op.push_front _ :: ops => popCount ops
  | Op.pop_back :: ops => popCount ops + 1
  | Op.pop_front :: ops => popCount ops + 1

/-- Push a whole sequence of values at the back, left to right. -/
def push_back_seq {T : Type} (s : LinkedList T) (vs : List T) : LinkedList T :=
  vs.foldl LinkedList.push_back s

/-- Push a whole sequence of values at the front, left to right. -/
def push_front_seq {T : Type} (s : LinkedList T) (vs : List T) : LinkedList T :=
  vs.foldl LinkedList.push_front s

/-- Call pop_front n times, collecting the returned options. -/
def pop_front_n {T : Type} : LinkedList T → Nat → List (Option T)
  | _, 0 => []
  | s, n + 1 => (s.pop_front).1 :: pop_front_n (s.pop_front).2 n

/-- Call pop_back n times, collecting the returned options. -/
def pop_back_n {T : Type} : LinkedList T → Nat → List (Option T)
  | _, 0 => []
  | s, n + 1 => (s.pop_back).1 :: pop_back_n (s.pop_back).2 n

/-- Follow next pointers k times from an optional address. -/
def followNext {T : Type} (heap : Nat → Option (Node T)) : Option Nat → Nat → Option Nat
  | cur, 0 => cur
  | cur, k + 1 =>
    match cur with
    | none => none
    | some a =>
      match heap a with
      | none => none
      | some node => followNext heap node.next k

/-- Follow prev pointers k times from an optional address. -/
def followPrev {T : Type} (heap : Nat → Option (Node T)) : Option Nat → Nat → Option Nat
  | cur, 0 => cur
  | cur, k + 1 =>
    match cur with
    | none => none
    | some a =>
      match heap a with
      | none => none
      | some node => followPrev heap node.prev k

/-- Collect up to fuel values following next pointers. -/
def collectNext {T : Type} (heap : Nat → Option (Node T)) : Option Nat → Nat → List T
  | _, 0 => []
  | cur, k + 1 =>
    match cur with
    | none => []
    | some a =>
      match heap a with
      | none => []
      | some node => node.data.as_ref :: collectNext heap node.next k

/-- Abstract value sequence of a list state, head to tail. -/
def toList {T : Type} (s : LinkedList T) : List T :=
  collectNext s.heap s.head s.len

/-- Fuel-bounded model of the while loop in Drop for LinkedList
(main.rs lines 164-168): keep popping at the back until nothing comes out,
collecting the destroyed values in destruction order. -/
def dropLoop {T : Type} : Nat → LinkedList T → List T
  | 0, _ => []
  | fuel + 1, s =>
    match s.pop_back with
    | (some v, s2) => v :: dropLoop fuel s2
    | (none, _) => []

/-- Destruction sequence of Drop for LinkedList: the loop pops at most len
times before pop_back returns none, so len + 1 units of fuel model the
unbounded while loop exactly. -/
def dropSeq {T : Type} (s : LinkedList T) : List T :=
  dropLoop (s.len + 1) s

/-- Run an interleaving of next (true) and next_back (false) calls,
collecting the yielded values and the final iterator state. -/
def runIterFull {T : Type} (heap : Nat → Option (Node T)) :
    Iter T → List Bool → List T × Iter T
  | it, [] => ([], it)
  | it, b :: bs =>
    let step := if b then Iter.next heap it else Iter.next_back heap it
    let rest := runIterFull heap step.2 bs
    match step.1 with
    | none => (rest.1, rest.2)
    | some v => (v :: rest.1, rest.2)

/-- Outcome of a push when the allocator may fail.  In the source,
GpuBox::new unwraps the result of DeviceMemory::alloc_and_map, so an
allocation failure panics; there is no error-returning path (push returns
unit).  The err constructor exists only to make an error-return observable
as an outcome: the code never produces it. -/
inductive PushOutcome (T : Type) where
  | ok (s : LinkedList T)
  | err (s : LinkedList T)
  | panicked (s : LinkedList T)

/-- Whether an outcome is a surfaced error return. -/
def PushOutcome.isErr {T : Type} : PushOutcome T → Bool
  | .err _ => true
  | _ => false

/-- push_back under an allocator that may fail: GpuBox::new runs before any
link mutation, and its unwrap panics on failure, leaving the list untouched
at the panic point (main.rs lines 31-47 and 113-118). -/
def LinkedList.push_back_alloc {T : Type} (allocOk : Bool) (s : LinkedList T) (data : T) :
    PushOutcome T :=
  if allocOk then .ok (s.push_back data) else .panicked s

/-- push_front under an allocator that may fail, as for push_back. -/
def LinkedList.push_front_alloc {T : Type} (allocOk : Bool) (s : LinkedList T) (data : T) :
    PushOutcome T :=
  if allocOk then .ok (s.push_front data) else .panicked s

/-- Expected prev pointer of the node at position i of an address chain. -/
def prevAt (addrs : List Nat) (i : Nat) : Option Nat :=
  if i = 0 then none else addrs[i - 1]?

/-- Expected next pointer of the node at position i of an address chain. -/
def nextAt (addrs : List Nat) (i : Nat) : Option Nat := addrs[i + 1]?

/-- Representation invariant of the pointer structure: the state s stores
the value sequence vals (head to tail) in a chain of distinct live
addresses addrs below the allocation counter, doubly linked in order, with
head and tail at the two ends. -/
structure Inv {T : Type} (s : LinkedList T) (addrs : List Nat) (vals : List T) : Prop where
  nodup : addrs.Nodup
  lenA : addrs.length = vals.length
  lenS : s.len = vals.length
  headEq : s.head = addrs[0]?
  tailEq : s.tail = addrs.getLast?
  fresh : ∀ a ∈ addrs, a < s.nextAddr
  chain : ∀ i a v, addrs[i]? = some a → vals[i]? = some v →
    s.heap a = some { prev := prevAt addrs i, next := nextAt addrs i, data := GpuBox.new v }

/-- Segment invariant for a live iterator: the iterator's remaining window
is a contiguous doubly linked segment of nodes at addresses addrs holding
values vals, delimited by the iterator's head and tail cursors.  The prev
pointer of the first node and the next pointer of the last node are
unconstrained (they point out of the window). -/
structure SegInv {T : Type} (heap : Nat → Option (Node T)) (it : Iter T)
    (addrs : List Nat) (vals : List T) : Prop where
  lenA : addrs.length = vals.length
  lenI : it.len = vals.length
  headEq : vals ≠ [] → it.head = addrs[0]?
  tailEq : vals ≠ [] → it.tail = addrs.getLast?
  chain : ∀ i a v, addrs[i]? = some a → vals[i]? = some v →
    ∃ nd : Node T, heap a = some nd ∧ nd.data = GpuBox.new v ∧
      (i + 1 < addrs.length → nd.next = addrs[i + 1]?) ∧
      (1 ≤ i → nd.prev = addrs[i - 1]?)

theorem hupdate_self {T : Type} (h : Nat → Option (Node T)) (a : Nat) (v : Option (Node T)) :
    hupdate h a v a = v := by
  simp [hupdate]

theorem hupdate_ne {T : Type} (h : Nat → Option (Node T)) {b a : Nat} (v : Option (Node T))
    (hne : b ≠ a) : hupdate h a v b = h b := by
  simp [hupdate, hne]

/-- A fresh list satisfies the invariant with the empty chain. -/
theorem inv_empty (T : Type) : Inv (LinkedList.with_device T) [] [] := by
  refine ⟨List.nodup_nil, rfl, rfl, rfl, rfl, ?_, ?_⟩
  · intro a ha
    simp at ha
  · intro i a v ha _
    simp at ha

theorem push_back_none {T : Type} (s : LinkedList T) (v : T) (h : s.tail = none) :
    s.push_back v =
      { head := some s.nextAddr, tail := some s.nextAddr, len := s.len + 1,
        heap := hupdate s.heap s.nextAddr
          (some { prev := none, next := none, data := GpuBox.new v }),
        nextAddr := s.nextAddr + 1 } := by
  simp only [LinkedList.push_back, h]

theorem push_back_some {T : Type} (s : LinkedList T) (v : T) {t : Nat} (h : s.tail = some t) :
    s.push_back v =
      { head := s.head, tail := some s.nextAddr, len := s.len + 1,
        heap := hupdate
          (hupdate s.heap s.nextAddr
            (some { prev := some t, next := none, data := GpuBox.new v })) t
          ((hupdate s.heap s.nextAddr
            (some { prev := some t, next := none, data := GpuBox.new v }) t).map
              fun n => { n with next := some s.nextAddr }),
        nextAddr := s.nextAddr + 1 } := by
  simp only [LinkedList.push_back, h]

theorem push_front_none {T : Type} (s : LinkedList T) (v : T) (h : s.head = none) :
    s.push_front v =
      { head := some s.nextAddr, tail := some s.nextAddr, len := s.len + 1,
        heap := hupdate s.heap s.nextAddr
          (some { prev := none, next := none, data := GpuBox.new v }),
        nextAddr := s.nextAddr + 1 } := by
  simp only [LinkedList.push_front, h]

theorem push_front_some {T : Type} (s : LinkedList T) (v : T) {t : Nat} (h : s.head = some t) :
    s.push_front v =
      { head := some s.nextAddr, tail := s.tail, len := s.len + 1,
        heap := hupdate
          (hupdate s.heap s.nextAddr
            (some { prev := none, next := s.head, data := GpuBox.new v })) t
          ((hupdate s.heap s.nextAddr
            (some { prev := none, next := s.head, data := GpuBox.new v }) t).map
              fun n => { n with prev := some s.nextAddr }),
        nextAddr := s.nextAddr + 1 } := by
  simp only [LinkedList.push_front, h]

theorem pop_back_of_tail_none {T : Type} (s : LinkedList T) (h : s.tail = none) :
    s.pop_back = (none, s) := by
  simp only [LinkedList.pop_back, h]

theorem pop_back_of_prev_some {T : Type} {s : LinkedList T} {t p : Nat} {nd : Node T}
    (h1 : s.tail = some t) (h2 : s.heap t = some nd) (h3 : nd.prev = some p) :
    s.pop_back = (some nd.data.into_inner,
      { head := s.head, tail := some p, len := s.len - 1,
        heap := hupdate (hupdate s.heap t none) p
          (((hupdate s.heap t none) p).map fun n => { n with next := none }),
        nextAddr := s.nextAddr }) := by
  simp only [LinkedList.pop_back, h1, h2, h3]

theorem pop_back_of_prev_none {T : Type} {s : LinkedList T} {t : Nat} {nd : Node T}
    (h1 : s.tail = some t) (h2 : s.heap t = some nd) (h3 : nd.prev = none) :
    s.pop_back = (some nd.data.into_inner,
      { head := none, tail := none, len := s.len - 1,
        heap := hupdate s.heap t none, nextAddr := s.nextAddr }) := by
  simp only [LinkedList.pop_back, h1, h2, h3]

theorem pop_front_of_head_none {T : Type} (s : LinkedList T) (h : s.head = none) :
    s.pop_front = (none, s) := by
  simp only [LinkedList.pop_front, h]

theorem pop_front_of_next_some {T : Type} {s : LinkedList T} {t p : Nat} {nd : Node T}
    (h1 : s.head = some t) (h2 : s.heap t = some nd) (h3 : nd.next = some p) :
    s.pop_front = (some nd.data.into_inner,
      { head := some p, tail := s.tail, len := s.len - 1,
        heap := hupdate (hupdate s.heap t none) p
          (((hupdate s.heap t none) p).map fun n => { n with prev := none }),
        nextAddr := s.nextAddr }) := by
  simp only [LinkedList.pop_front, h1, h2, h3]

theorem pop_front_of_next_none {T : Type} {s : LinkedList T} {t : Nat} {nd : Node T}
    (h1 : s.head = some t) (h2 : s.heap t = some nd) (h3 : nd.next = none) :
    s.pop_front = (some nd.data.into_inner,
      { head := none, tail := none, len := s.len - 1,
        heap := hupdate s.heap t none, nextAddr := s.nextAddr }) := by
  simp only [LinkedList.pop_front, h1, h2, h3]

/-- push_back appends the value to the abstract sequence and the fresh
address to the chain. -/
theorem inv_push_back {T : Type} {s : LinkedList T} {addrs : List Nat} {vals : List T}
    (h : Inv s addrs vals) (v : T) :
    Inv (s.push_back v) (addrs ++ [s.nextAddr]) (vals ++ [v]) := by
  have hnotmem : s.nextAddr ∉ addrs := fun hmem => absurd (h.fresh _ hmem) (lt_irrefl _)
  cases htail : s.tail with
  | none =>
    have haddrs : addrs = [] := List.getLast?_eq_none_iff.mp (h.tailEq.symm.trans htail)
    have hvals : vals = [] := List.length_eq_zero.mp (by simpa [haddrs] using h.lenA.symm)
    subst haddrs
    subst hvals
    rw [push_back_none s v htail]
    refine ⟨by simp, by simp, by simpa using h.lenS, by simp, by simp, ?_, ?_⟩
    · intro a ha
      simp at ha
      subst ha
      exact Nat.lt_succ_self _
    · intro i a v' ha hv
      match i with
      | 0 =>
        simp at ha hv
        subst ha
        subst hv
        dsimp only
        rw [hupdate_self]
        rfl
      | i + 1 =>
        simp at ha
  | some t =>
    have htlast : addrs.getLast? = some t := h.tailEq.symm.trans htail
    have haddrs_ne : addrs ≠ [] := by
      intro he
      rw [he] at htlast
      simp at htlast
    have hlen1 : 1 ≤ addrs.length := List.length_pos.mpr haddrs_ne
    have htidx : addrs[addrs.length - 1]? = some t := by
      rw [← List.getLast?_eq_getElem?]
      exact htlast
    have htlt : t < s.nextAddr := h.fresh t (List.getElem?_mem htidx)
    have htne : t ≠ s.nextAddr := Nat.ne_of_lt htlt
    have hlav := h.lenA
    rw [push_back_some s v htail]
    refine ⟨?_, by simp [h.lenA], by simpa using h.lenS, ?_, ?_, ?_, ?_⟩
    · exact List.nodup_append.mpr ⟨h.nodup, List.nodup_singleton _,
        fun x hx hx2 => by simp at hx2; subst hx2; exact hnotmem hx⟩
    · dsimp only
      rw [h.headEq, List.getElem?_append_left (by omega)]
    · dsimp only
      rw [List.getLast?_concat]
    · intro a ha
      dsimp only
      rcases List.mem_append.mp ha with hmem | hmem
      · exact Nat.lt_succ_of_lt (h.fresh a hmem)
      · simp at hmem
        subst hmem
        exact Nat.lt_succ_self _
    · intro i a v' ha hv
      have hi1 : i < addrs.length + 1 := by
        have := (List.getElem?_eq_some_iff.mp ha).1
        simpa using this
      dsimp only
      by_cases hi : i = addrs.length
      · subst hi
        have ha2 : s.nextAddr = a :=
          Option.some.inj ((List.getElem?_concat_length addrs s.nextAddr).symm.trans ha)
        have hv2 : v = v' := by
          apply Option.some.inj
          rw [← List.getElem?_concat_length vals v, ← h.lenA]
          exact hv
        subst ha2
        subst hv2
        have hprev : prevAt (addrs ++ [s.nextAddr]) addrs.length = some t := by
          unfold prevAt
          rw [if_neg (by omega), List.getElem?_append_left (by omega)]
          exact htidx
        have hnext : nextAt (addrs ++ [s.nextAddr]) addrs.length = none := by
          unfold nextAt
          exact List.getElem?_eq_none (by simp)
        rw [hupdate_ne _ _ (Ne.symm htne), hupdate_self, hprev, hnext]
      · have hi2 : i < addrs.length := by omega
        have ha2 : addrs[i]? = some a := (List.getElem?_append_left hi2).symm.trans ha
        have hv2 : vals[i]? = some v' := (List.getElem?_append_left (by omega)).symm.trans hv
        have hnode := h.chain i a v' ha2 hv2
        have halt : a < s.nextAddr := h.fresh a (List.getElem?_mem ha2)
        have hane : a ≠ s.nextAddr := Nat.ne_of_lt halt
        have hprev' : prevAt (addrs ++ [s.nextAddr]) i = prevAt addrs i := by
          unfold prevAt
          by_cases h0 : i = 0
          · simp [h0]
          · rw [if_neg h0, if_neg h0, List.getElem?_append_left (by omega)]
        by_cases hlast : i = addrs.length - 1
        · have hat : t = a := by
            apply Option.some.inj
            rw [← htidx, ← hlast]
            exact ha2
          subst hat
          have hnext' : nextAt (addrs ++ [s.nextAddr]) i = some s.nextAddr := by
            unfold nextAt
            have hsucc : i + 1 = addrs.length := by omega
            rw [hsucc]
            exact List.getElem?_concat_length _ _
          rw [hupdate_self, hupdate_ne _ _ htne, hnode, hprev', hnext']
          rfl
        · have hat : a ≠ t := by
            intro he
            apply hlast
            exact List.getElem?_inj hi2 h.nodup (ha2.trans (he ▸ htidx).symm)
          have hnext' : nextAt (addrs ++ [s.nextAddr]) i = nextAt addrs i := by
            unfold nextAt
            rw [List.getElem?_append_left (by omega)]
          rw [hupdate_ne _ _ hat, hupdate_ne _ _ hane, hnode, hprev', hnext']

/-- push_front prepends the value to the abstract sequence and the fresh
address to the chain. -/
theorem inv_push_front {T : Type} {s : LinkedList T} {addrs : List Nat} {vals : List T}
    (h : Inv s addrs vals) (v : T) :
    Inv (s.push_front v) (s.nextAddr :: addrs) (v :: vals) := by
  have hnotmem : s.nextAddr ∉ addrs := fun hmem => absurd (h.fresh _ hmem) (lt_irrefl _)
  cases hhead : s.head with
  | none =>
    have haddrs : addrs = [] := by
      have h0 : addrs[0]? = none := h.headEq.symm.trans hhead
      have := List.getElem?_eq_none_iff.mp h0
      exact List.length_eq_zero.mp (by omega)
    have hvals : vals = [] := List.length_eq_zero.mp (by simpa [haddrs] using h.lenA.symm)
    subst haddrs
    subst hvals
    rw [push_front_none s v hhead]
    refine ⟨by simp, by simp, by simpa using h.lenS, by simp, by simp, ?_, ?_⟩
    · intro a ha
      simp at ha
      subst ha
      exact Nat.lt_succ_self _
    · intro i a v' ha hv
      match i with
      | 0 =>
        simp at ha hv
        subst ha
        subst hv
        dsimp only
        rw [hupdate_self]
        rfl
      | i + 1 =>
        simp at ha
  | some t =>
    have htidx : addrs[0]? = some t := h.headEq.symm.trans hhead
    have haddrs_ne : addrs ≠ [] := by
      intro he
      rw [he] at htidx
      simp at htidx
    have hlen1 : 1 ≤ addrs.length := List.length_pos.mpr haddrs_ne
    have htlt : t < s.nextAddr := h.fresh t (List.getElem?_mem htidx)
    have htne : t ≠ s.nextAddr := Nat.ne_of_lt htlt
    have hlav := h.lenA
    rw [push_front_some s v hhead]
    refine ⟨List.nodup_cons.mpr ⟨hnotmem, h.nodup⟩, by simp [h.lenA],
      by simpa using h.lenS, by simp, ?_, ?_, ?_⟩
    · dsimp only
      rw [h.tailEq]
      rw [List.getLast?_eq_getElem?, List.getLast?_eq_getElem?]
      have hsucc : (s.nextAddr :: addrs).length - 1 = (addrs.length - 1) + 1 := by
        simp
        omega
      rw [hsucc, List.getElem?_cons_succ]
    · intro a ha
      dsimp only
      rcases List.mem_cons.mp ha with hmem | hmem
      · subst hmem
        exact Nat.lt_succ_self _
      · exact Nat.lt_succ_of_lt (h.fresh a hmem)
    · intro i a v' ha hv
      dsimp only
      match i with
      | 0 =>
        rw [List.getElem?_cons_zero] at ha hv
        have ha2 : s.nextAddr = a := Option.some.inj ha
        have hv2 : v = v' := Option.some.inj hv
        subst ha2
        subst hv2
        have hnext : nextAt (s.nextAddr :: addrs) 0 = s.head := by
          unfold nextAt
          rw [List.getElem?_cons_succ, ← h.headEq]
        rw [hupdate_ne _ _ (Ne.symm htne), hupdate_self, hnext]
        rfl
      | j + 1 =>
        rw [List.getElem?_cons_succ] at ha hv
        have hnode := h.chain j a v' ha hv
        have hj : j < addrs.length := (List.getElem?_eq_some_iff.mp ha).1
        have halt : a < s.nextAddr := h.fresh a (List.getElem?_mem ha)
        have hane : a ≠ s.nextAddr := Nat.ne_of_lt halt
        have hnext' : nextAt (s.nextAddr :: addrs) (j + 1) = nextAt addrs j := by
          unfold nextAt
          rw [List.getElem?_cons_succ]
        match j with
        | 0 =>
          have hat : t = a := Option.some.inj (htidx.symm.trans ha)
          subst hat
          have hprev' : prevAt (s.nextAddr :: addrs) 1 = some s.nextAddr := by
            unfold prevAt
            rw [if_neg (by omega), List.getElem?_cons_zero]
          rw [hupdate_self, hupdate_ne _ _ htne, hnode, hprev', hnext']
          have hpnone : prevAt addrs 0 = none := by
            unfold prevAt
            rw [if_pos rfl]
          rw [hpnone]
          rfl
        | k + 1 =>
          have hat : a ≠ t := by
            intro he
            have : (k + 1 : Nat) = 0 := List.getElem?_inj hj h.nodup (ha.trans (he ▸ htidx).symm)
            omega
          have hprev' : prevAt (s.nextAddr :: addrs) (k + 2) = prevAt addrs (k + 1) := by
            unfold prevAt
            rw [if_neg (by omega), if_neg (by omega)]
            have h1 : (k + 2 : Nat) - 1 = (k + 1 - 1) + 1 := by omega
            rw [h1, List.getElem?_cons_succ]
          rw [hupdate_ne _ _ hat, hupdate_ne _ _ hane, hnode, hprev', hnext']

/-- pop_back on an empty chain returns none and leaves the state unchanged. -/
theorem pop_back_empty {T : Type} {s : LinkedList T} {addrs : List Nat}
    (h : Inv s addrs []) : s.pop_back = (none, s) := by
  have haddrs : addrs = [] := List.length_eq_zero.mp (by simpa using h.lenA)
  apply pop_back_of_tail_none
  rw [h.tailEq, haddrs]
  rfl

/-- pop_front on an empty chain returns none and leaves the state unchanged. -/
theorem pop_front_empty {T : Type} {s : LinkedList T} {addrs : List Nat}
    (h : Inv s addrs []) : s.pop_front = (none, s) := by
  have haddrs : addrs = [] := List.length_eq_zero.mp (by simpa using h.lenA)
  apply pop_front_of_head_none
  rw [h.headEq, haddrs]
  rfl

/-- pop_back on a nonempty chain returns the last value and drops the last
chain position. -/
theorem inv_pop_back {T : Type} {s : LinkedList T} {addrs : List Nat} {vals : List T}
    (h : Inv s addrs vals) (hne : vals ≠ []) :
    (s.pop_back).1 = vals.getLast? ∧ Inv (s.pop_back).2 addrs.dropLast vals.dropLast := by
  have hlav := h.lenA
  have hlenS := h.lenS
  have hvpos : 1 ≤ vals.length := List.length_pos.mpr hne
  have hapos : 1 ≤ addrs.length := by omega
  have haddrs_ne : addrs ≠ [] := List.length_pos.mp hapos
  obtain ⟨t, htlast⟩ := Option.isSome_iff_exists.mp (List.getLast?_isSome.mpr haddrs_ne)
  have htail : s.tail = some t := h.tailEq.trans htlast
  have htidx : addrs[addrs.length - 1]? = some t := by
    rw [← List.getLast?_eq_getElem?]
    exact htlast
  obtain ⟨vl, hvidx⟩ : ∃ vl, vals[addrs.length - 1]? = some vl :=
    ⟨_, List.getElem?_eq_getElem (by omega)⟩
  have hglast : vals.getLast? = some vl := by
    rw [List.getLast?_eq_getElem?, ← hlav]
    exact hvidx
  have hnode := h.chain (addrs.length - 1) t vl htidx hvidx
  by_cases hn1 : addrs.length = 1
  · have hprevnone : prevAt addrs (addrs.length - 1) = none := by
      unfold prevAt
      rw [if_pos (by omega)]
    have hpop := pop_back_of_prev_none htail hnode hprevnone
    rw [hpop]
    constructor
    · simp [GpuBox.into_inner, GpuBox.new, hglast]
    · have hdropA : addrs.dropLast = [] :=
        List.length_eq_zero.mp (by rw [List.length_dropLast]; omega)
      have hdropV : vals.dropLast = [] :=
        List.length_eq_zero.mp (by rw [List.length_dropLast]; omega)
      rw [hdropA, hdropV]
      refine ⟨List.nodup_nil, rfl, ?_, rfl, rfl, ?_, ?_⟩
      · dsimp only
        simp
        omega
      · intro a ha
        simp at ha
      · intro i a v ha _
        simp at ha
  · have hn2 : 2 ≤ addrs.length := by omega
    have hplt : addrs.length - 2 < addrs.length := by omega
    obtain ⟨p, hpidx⟩ : ∃ p, addrs[addrs.length - 2]? = some p :=
      ⟨_, List.getElem?_eq_getElem hplt⟩
    have hprev : prevAt addrs (addrs.length - 1) = some p := by
      unfold prevAt
      rw [if_neg (by omega)]
      have he : addrs.length - 1 - 1 = addrs.length - 2 := by omega
      rw [he]
      exact hpidx
    have hpt : p ≠ t := by
      intro he
      have := List.getElem?_inj hplt h.nodup (hpidx.trans (he ▸ htidx).symm)
      omega
    have hpop := pop_back_of_prev_some htail hnode hprev
    rw [hpop]
    constructor
    · simp [GpuBox.into_inner, GpuBox.new, hglast]
    · refine ⟨(List.dropLast_sublist addrs).nodup h.nodup, by simp [hlav], ?_, ?_, ?_, ?_, ?_⟩
      · dsimp only
        simp [hlenS]
      · dsimp only
        rw [h.headEq, List.getElem?_dropLast, if_pos (by omega)]
      · dsimp only
        rw [List.getLast?_eq_getElem?, List.getElem?_dropLast, List.length_dropLast,
          if_pos (by omega)]
        have he : addrs.length - 1 - 1 = addrs.length - 2 := by omega
        rw [he, hpidx]
      · intro a ha
        exact h.fresh a ((List.dropLast_sublist addrs).subset ha)
      · intro i a v' ha hv
        rw [List.getElem?_dropLast] at ha hv
        by_cases hilt : i < addrs.length - 1
        · rw [if_pos hilt] at ha
          rw [if_pos (by omega)] at hv
          have hnodei := h.chain i a v' ha hv
          have hipos : i < addrs.length := by omega
          have hprevEq : prevAt addrs.dropLast i = prevAt addrs i := by
            unfold prevAt
            by_cases h0 : i = 0
            · simp [h0]
            · rw [if_neg h0, if_neg h0, List.getElem?_dropLast, if_pos (by omega)]
          dsimp only
          by_cases hplast : i = addrs.length - 2
          · have hap : p = a := by
              apply Option.some.inj
              rw [← hpidx, ← hplast]
              exact ha
            subst hap
            have hnextEq : nextAt addrs.dropLast i = none := by
              unfold nextAt
              rw [List.getElem?_dropLast, if_neg (by omega)]
            rw [hupdate_self, hupdate_ne _ _ hpt, hnodei, hprevEq, hnextEq]
            rfl
          · have hat : a ≠ t := by
              intro he
              have := List.getElem?_inj hipos h.nodup (ha.trans (he ▸ htidx).symm)
              omega
            have hap : a ≠ p := by
              intro he
              have := List.getElem?_inj hipos h.nodup (ha.trans (he ▸ hpidx).symm)
              omega
            have hnextEq : nextAt addrs.dropLast i = nextAt addrs i := by
              unfold nextAt
              rw [List.getElem?_dropLast, if_pos (by omega)]
            rw [hupdate_ne _ _ hap, hupdate_ne _ _ hat, hnodei, hprevEq, hnextEq]
        · rw [if_neg hilt] at ha
          exact absurd ha (by simp)

/-- pop_front on a nonempty chain returns the first value and drops the
first chain position. -/
theorem inv_pop_front {T : Type} {s : LinkedList T} {addrs : List Nat} {vals : List T}
    (h : Inv s addrs vals) (hne : vals ≠ []) :
    (s.pop_front).1 = vals[0]? ∧ Inv (s.pop_front).2 addrs.tail vals.tail := by
  have hlav := h.lenA
  have hlenS := h.lenS
  have hvpos : 1 ≤ vals.length := List.length_pos.mpr hne
  have hapos : 1 ≤ addrs.length := by omega
  obtain ⟨t, htidx⟩ : ∃ t, addrs[0]? = some t :=
    ⟨_, List.getElem?_eq_getElem (by omega)⟩
  have hhead : s.head = some t := h.headEq.trans htidx
  obtain ⟨vl, hvidx⟩ : ∃ vl, vals[0]? = some vl :=
    ⟨_, List.getElem?_eq_getElem (by omega)⟩
  have hnode := h.chain 0 t vl htidx hvidx
  have hprev0 : prevAt addrs 0 = none := by
    unfold prevAt
    rw [if_pos rfl]
  by_cases hn1 : addrs.length = 1
  · have hnextnone : nextAt addrs 0 = none := by
      unfold nextAt
      exact List.getElem?_eq_none (by omega)
    have hpop := pop_front_of_next_none hhead hnode hnextnone
    rw [hpop]
    constructor
    · simp [GpuBox.into_inner, GpuBox.new, hvidx]
    · have hdropA : addrs.tail = [] :=
        List.length_eq_zero.mp (by rw [List.length_tail]; omega)
      have hdropV : vals.tail = [] :=
        List.length_eq_zero.mp (by rw [List.length_tail]; omega)
      rw [hdropA, hdropV]
      refine ⟨List.nodup_nil, rfl, ?_, rfl, rfl, ?_, ?_⟩
      · dsimp only
        simp
        omega
      · intro a ha
        simp at ha
      · intro i a v ha _
        simp at ha
  · have hn2 : 2 ≤ addrs.length := by omega
    obtain ⟨p, hpidx⟩ : ∃ p, addrs[1]? = some p :=
      ⟨_, List.getElem?_eq_getElem (by omega)⟩
    have hnext : nextAt addrs 0 = some p := hpidx
    have hpt : p ≠ t := by
      intro he
      have := List.getElem?_inj (show 1 < addrs.length by omega) h.nodup
        (hpidx.trans (he ▸ htidx).symm)
      omega
    have hpop := pop_front_of_next_some hhead hnode hnext
    rw [hpop]
    constructor
    · simp [GpuBox.into_inner, GpuBox.new, hvidx]
    · refine ⟨(List.tail_sublist addrs).nodup h.nodup, by simp [hlav], ?_, ?_, ?_, ?_, ?_⟩
      · dsimp only
        simp [hlenS]
      · dsimp only
        rw [List.getElem?_tail]
        exact hpidx.symm
      · dsimp only
        rw [h.tailEq, List.getLast?_eq_getElem?, List.getLast?_eq_getElem?,
          List.getElem?_tail, List.length_tail]
        have he : addrs.length - 1 - 1 + 1 = addrs.length - 1 := by omega
        rw [he]
      · intro a ha
        exact h.fresh a ((List.tail_sublist addrs).subset ha)
      · intro i a v' ha hv
        rw [List.getElem?_tail] at ha hv
        have hnodei := h.chain (i + 1) a v' ha hv
        have hilt : i + 1 < addrs.length := (List.getElem?_eq_some_iff.mp ha).1
        dsimp only
        have hnextEq : nextAt addrs.tail i = nextAt addrs (i + 1) := by
          unfold nextAt
          rw [List.getElem?_tail]
        match i with
        | 0 =>
          have hap : p = a := Option.some.inj (hpidx.symm.trans ha)
          subst hap
          have hprevEq : prevAt addrs.tail 0 = none := by
            unfold prevAt
            rw [if_pos rfl]
          have hprev1 : prevAt addrs 1 = some t := by
            unfold prevAt
            rw [if_neg (by omega)]
            exact htidx
          rw [hupdate_self, hupdate_ne _ _ hpt, hnodei, hprevEq, hnextEq]
          rfl
        | j + 1 =>
          have hat : a ≠ t := by
            intro he
            have := List.getElem?_inj hilt h.nodup (ha.trans (he ▸ htidx).symm)
            omega
          have hap : a ≠ p := by
            intro he
            have := List.getElem?_inj hilt h.nodup (ha.trans (he ▸ hpidx).symm)
            omega
          have hprevEq : prevAt addrs.tail (j + 1) = prevAt addrs (j + 2) := by
            unfold prevAt
            rw [if_neg (by omega), if_neg (by omega), List.getElem?_tail]
            have he : j + 1 - 1 + 1 = j + 2 - 1 := by omega
            rw [he]
          rw [hupdate_ne _ _ hap, hupdate_ne _ _ hat, hnodei, hprevEq, hnextEq]

/-- Applying any operation preserves the existence of a chain. -/
theorem inv_applyOp {T : Type} {s : LinkedList T} {addrs : List Nat} {vals : List T}
    (h : Inv s addrs vals) (op : Op T) :
    ∃ addrs2 vals2, Inv (applyOp s op) addrs2 vals2 := by
  cases op with
  | push_back v => exact ⟨_, _, inv_push_back h v⟩
  | push_front v => exact ⟨_, _, inv_push_front h v⟩
  | pop_back =>
    by_cases hv : vals = []
    · subst hv
      refine ⟨addrs, [], ?_⟩
      show Inv (s.pop_back).2 addrs []
      rw [pop_back_empty h]
      exact h
    · exact ⟨_, _, (inv_pop_back h hv).2⟩
  | pop_front =>
    by_cases hv : vals = []
    · subst hv
      refine ⟨addrs, [], ?_⟩
      show Inv (s.pop_front).2 addrs []
      rw [pop_front_empty h]
      exact h
    · exact ⟨_, _, (inv_pop_front h hv).2⟩

/-- Running any operation sequence preserves the existence of a chain. -/
theorem inv_runOps {T : Type} : ∀ (ops : List (Op T)) (s : LinkedList T) (addrs : List Nat)
    (vals : List T), Inv s addrs vals → ∃ addrs2 vals2, Inv (runOps s ops) addrs2 vals2 := by
  intro ops
  induction ops with
  | nil =>
    intro s addrs vals h
    exact ⟨addrs, vals, h⟩
  | cons op ops ih =>
    intro s addrs vals h
    obtain ⟨a2, v2, h2⟩ := inv_applyOp h op
    exact ih _ a2 v2 h2

/-- Every reachable state carries a chain. -/
theorem reachable_inv {T : Type} {s : LinkedList T} (h : Reachable s) :
    ∃ addrs vals, Inv s addrs vals := by
  obtain ⟨ops, hops⟩ := h
  rw [← hops]
  exact inv_runOps ops _ [] [] (inv_empty T)

/-- Collecting along next pointers from position i reads off the value
suffix from i. -/
theorem collect_inv {T : Type} {s : LinkedList T} {addrs : List Nat} {vals : List T}
    (h : Inv s addrs vals) :
    ∀ (k i : Nat), i + k = vals.length →
      collectNext s.heap addrs[i]? k = vals.drop i := by
  intro k
  induction k with
  | zero =>
    intro i hi
    have hd : vals.drop i = [] := List.drop_eq_nil_of_le (by omega)
    rw [hd]
    rfl
  | succ k ih =>
    intro i hi
    have hlav := h.lenA
    have hil : i < vals.length := by omega
    have hia : i < addrs.length := by omega
    obtain ⟨a, ha⟩ : ∃ a, addrs[i]? = some a := ⟨_, List.getElem?_eq_getElem hia⟩
    obtain ⟨v, hv⟩ : ∃ v, vals[i]? = some v := ⟨_, List.getElem?_eq_getElem hil⟩
    have hnode := h.chain i a v ha hv
    have hvi : vals[i] = v := by
      apply Option.some.inj
      rw [← hv]
      exact (List.getElem?_eq_getElem hil).symm
    rw [ha]
    simp only [collectNext]
    rw [hnode]
    dsimp only
    rw [List.drop_eq_getElem_cons hil, hvi]
    show v :: collectNext s.heap addrs[i + 1]? k = v :: vals.drop (i + 1)
    rw [ih (i + 1) (by omega)]

/-- The abstract value sequence of a state with a chain is that chain's
value list. -/
theorem toList_inv {T : Type} {s : LinkedList T} {addrs : List Nat} {vals : List T}
    (h : Inv s addrs vals) : toList s = vals := by
  unfold toList
  rw [h.lenS, h.headEq]
  have := collect_inv h vals.length 0 (by omega)
  simpa using this

/-- Following next pointers k steps from chain position i lands at
position i + k. -/
theorem follow_next_inv {T : Type} {s : LinkedList T} {addrs : List Nat} {vals : List T}
    (h : Inv s addrs vals) :
    ∀ (k i : Nat), i + k < addrs.length →
      followNext s.heap addrs[i]? k = addrs[i + k]? := by
  intro k
  induction k with
  | zero =>
    intro i _
    rfl
  | succ k ih =>
    intro i hik
    have hlav := h.lenA
    have hia : i < addrs.length := by omega
    have hil : i < vals.length := by omega
    obtain ⟨a, ha⟩ : ∃ a, addrs[i]? = some a := ⟨_, List.getElem?_eq_getElem hia⟩
    obtain ⟨v, hv⟩ : ∃ v, vals[i]? = some v := ⟨_, List.getElem?_eq_getElem hil⟩
    have hnode := h.chain i a v ha hv
    rw [ha]
    simp only [followNext]
    rw [hnode]
    dsimp only
    show followNext s.heap addrs[i + 1]? k = _
    rw [ih (i + 1) (by omega)]
    have he : i + 1 + k = i + (k + 1) := by omega
    rw [he]

/-- Following prev pointers k steps from chain position j lands at
position j - k. -/
theorem follow_prev_inv {T : Type} {s : LinkedList T} {addrs : List Nat} {vals : List T}
    (h : Inv s addrs vals) :
    ∀ (k j : Nat), j < addrs.length → k ≤ j →
      followPrev s.heap addrs[j]? k = addrs[j - k]? := by
  intro k
  induction k with
  | zero =>
    intro j _ _
    rfl
  | succ k ih =>
    intro j hj hkj
    have hlav := h.lenA
    have hjl : j < vals.length := by omega
    obtain ⟨a, ha⟩ : ∃ a, addrs[j]? = some a := ⟨_, List.getElem?_eq_getElem hj⟩
    obtain ⟨v, hv⟩ : ∃ v, vals[j]? = some v := ⟨_, List.getElem?_eq_getElem hjl⟩
    have hnode := h.chain j a v ha hv
    rw [ha]
    simp only [followPrev]
    rw [hnode]
    dsimp only
    have hprev : prevAt addrs j = addrs[j - 1]? := by
      unfold prevAt
      rw [if_neg (by omega)]
    show followPrev s.heap (prevAt addrs j) k = _
    rw [hprev, ih (j - 1) (by omega) (by omega)]
    have he : j - 1 - k = j - (k + 1) := by omega
    rw [he]

/-- Popping at the front as many times as the chain is long yields exactly
the chain values in order. -/
theorem pop_front_n_inv {T : Type} :
    ∀ (vals : List T) {s : LinkedList T} {addrs : List Nat}, Inv s addrs vals →
      pop_front_n s vals.length = vals.map some := by
  intro vals
  induction vals with
  | nil =>
    intro s addrs _
    rfl
  | cons v vs ih =>
    intro s addrs h
    have hp := inv_pop_front h (by simp)
    show (s.pop_front).1 :: pop_front_n (s.pop_front).2 vs.length = some v :: vs.map some
    rw [hp.1, ih hp.2]
    simp

/-- Popping at the back as many times as the chain is long yields exactly
the chain values in reverse order. -/
theorem pop_back_n_inv {T : Type} :
    ∀ (vals : List T) {s : LinkedList T} {addrs : List Nat}, Inv s addrs vals →
      pop_back_n s vals.length = vals.reverse.map some := by
  intro vals
  induction vals using List.reverseRecOn with
  | nil =>
    intro s addrs _
    rfl
  | append_singleton vs v ih =>
    intro s addrs h
    have hp := inv_pop_back h (by simp)
    have hlen : (vs ++ [v]).length = vs.length + 1 := by simp
    rw [hlen]
    show (s.pop_back).1 :: pop_back_n (s.pop_back).2 vs.length = _
    have h2 := hp.2
    rw [List.dropLast_concat] at h2
    rw [hp.1, List.getLast?_concat, ih h2]
    simp

/-- Pushing a sequence at the back appends it to the abstract sequence. -/
theorem inv_push_back_seq {T : Type} :
    ∀ (vs : List T) {s : LinkedList T} {addrs : List Nat} {vals : List T},
      Inv s addrs vals → ∃ addrs2, Inv (push_back_seq s vs) addrs2 (vals ++ vs) := by
  intro vs
  induction vs with
  | nil =>
    intro s addrs vals h
    exact ⟨addrs, by simpa using h⟩
  | cons v vs ih =>
    intro s addrs vals h
    obtain ⟨a2, h2⟩ := ih (inv_push_back h v)
    refine ⟨a2, ?_⟩
    have he : (vals ++ [v]) ++ vs = vals ++ v :: vs := by simp
    show Inv (push_back_seq (s.push_back v) vs) a2 (vals ++ v :: vs)
    rw [← he]
    exact h2

/-- Pushing a sequence at the front prepends its reverse to the abstract
sequence. -/
theorem inv_push_front_seq {T : Type} :
    ∀ (vs : List T) {s : LinkedList T} {addrs : List Nat} {vals : List T},
      Inv s addrs vals → ∃ addrs2, Inv (push_front_seq s vs) addrs2 (vs.reverse ++ vals) := by
  intro vs
  induction vs with
  | nil =>
    intro s addrs vals h
    exact ⟨addrs, by simpa using h⟩
  | cons v vs ih =>
    intro s addrs vals h
    obtain ⟨a2, h2⟩ := ih (inv_push_front h v)
    refine ⟨a2, ?_⟩
    have he : vs.reverse ++ (v :: vals) = (v :: vs).reverse ++ vals := by simp
    show Inv (push_front_seq (s.push_front v) vs) a2 ((v :: vs).reverse ++ vals)
    rw [← he]
    exact h2

/-- The teardown loop pops the whole chain, yielding the values in reverse
(tail-to-head) order, for any sufficient fuel. -/
theorem dropLoop_inv {T : Type} :
    ∀ (vals : List T) {s : LinkedList T} {addrs : List Nat}, Inv s addrs vals →
      ∀ fuel : Nat, vals.length < fuel → dropLoop fuel s = vals.reverse := by
  intro vals
  induction vals using List.reverseRecOn with
  | nil =>
    intro s addrs h fuel hfuel
    cases fuel with
    | zero => omega
    | succ f =>
      show (match s.pop_back with
        | (some v, s2) => v :: dropLoop f s2
        | (none, _) => []) = _
      rw [pop_back_empty h]
      rfl
  | append_singleton vs v ih =>
    intro s addrs h fuel hfuel
    cases fuel with
    | zero =>
      rw [List.length_append] at hfuel
      omega
    | succ f =>
      have hp := inv_pop_back h (by simp)
      obtain ⟨r1, s2, hsp⟩ : ∃ r1 s2, s.pop_back = (r1, s2) := ⟨_, _, rfl⟩
      obtain ⟨hp1, hp2⟩ := hp
      rw [hsp] at hp1 hp2
      rw [List.getLast?_concat] at hp1
      have hr1 : r1 = some v := hp1
      subst hr1
      rw [List.dropLast_concat] at hp2
      show (match s.pop_back with
        | (some v, s2) => v :: dropLoop f s2
        | (none, _) => []) = _
      rw [hsp]
      dsimp only
      have hflen : vs.length < f := by
        rw [List.length_append] at hfuel
        simp at hfuel
        omega
      rw [ih hp2 f hflen]
      simp

/-- When every pop in a run returns a value, the final length plus the pop
count equals the starting chain length plus the push count. -/
theorem trace_len {T : Type} :
    ∀ (ops : List (Op T)) {s : LinkedList T} {addrs : List Nat} {vals : List T},
      Inv s addrs vals → (∀ r ∈ (runTrace s ops).2, r ≠ none) →
      (runTrace s ops).1.len + popCount ops = vals.length + pushCount ops := by
  intro ops
  induction ops with
  | nil =>
    intro s addrs vals h _
    show s.len + 0 = vals.length + 0
    rw [h.lenS]
  | cons op ops ih =>
    intro s addrs vals h hall
    cases op with
    | push_back v =>
      have hstep := ih (inv_push_back h v) hall
      rw [List.length_append] at hstep
      show (runTrace (s.push_back v) ops).1.len + popCount ops
        = vals.length + (pushCount ops + 1)
      simp at hstep
      omega
    | push_front v =>
      have hstep := ih (inv_push_front h v) hall
      rw [List.length_cons] at hstep
      show (runTrace (s.push_front v) ops).1.len + popCount ops
        = vals.length + (pushCount ops + 1)
      omega
    | pop_back =>
      have hall2 : ∀ r ∈ ((s.pop_back).1 :: (runTrace (s.pop_back).2 ops).2), r ≠ none := hall
      have hr1 : (s.pop_back).1 ≠ none := hall2 _ (List.mem_cons_self _ _)
      have hall3 : ∀ r ∈ (runTrace (s.pop_back).2 ops).2, r ≠ none :=
        fun r hr => hall2 r (List.mem_cons_of_mem _ hr)
      by_cases hv : vals = []
      · subst hv
        exact absurd (by rw [pop_back_empty h]) hr1
      · have hp := inv_pop_back h hv
        have hstep := ih hp.2 hall3
        rw [List.length_dropLast] at hstep
        have hvpos : 1 ≤ vals.length := List.length_pos.mpr hv
        show (runTrace (s.pop_back).2 ops).1.len + (popCount ops + 1)
          = vals.length + pushCount ops
        omega
    | pop_front =>
      have hall2 : ∀ r ∈ ((s.pop_front).1 :: (runTrace (s.pop_front).2 ops).2), r ≠ none := hall
      have hr1 : (s.pop_front).1 ≠ none := hall2 _ (List.mem_cons_self _ _)
      have hall3 : ∀ r ∈ (runTrace (s.pop_front).2 ops).2, r ≠ none :=
        fun r hr => hall2 r (List.mem_cons_of_mem _ hr)
      by_cases hv : vals = []
      · subst hv
        exact absurd (by rw [pop_front_empty h]) hr1
      · have hp := inv_pop_front h hv
        have hstep := ih hp.2 hall3
        rw [List.length_tail] at hstep
        have hvpos : 1 ≤ vals.length := List.length_pos.mpr hv
        show (runTrace (s.pop_front).2 ops).1.len + (popCount ops + 1)
          = vals.length + pushCount ops
        omega

theorem iter_next_zero {T : Type} {heap : Nat → Option (Node T)} {it : Iter T}
    (h : it.len = 0) : Iter.next heap it = (none, it) := by
  unfold Iter.next
  rw [if_pos h]

theorem iter_next_back_zero {T : Type} {heap : Nat → Option (Node T)} {it : Iter T}
    (h : it.len = 0) : Iter.next_back heap it = (none, it) := by
  unfold Iter.next_back
  rw [if_pos h]

theorem iter_next_some {T : Type} {heap : Nat → Option (Node T)} {it : Iter T}
    {t : Nat} {nd : Node T} (h0 : ¬it.len = 0) (h1 : it.head = some t)
    (h2 : heap t = some nd) :
    Iter.next heap it
      = (some nd.data.as_ref, { head := nd.next, tail := it.tail, len := it.len - 1 }) := by
  unfold Iter.next
  rw [if_neg h0, h1]
  dsimp only
  rw [h2]

theorem iter_next_back_some {T : Type} {heap : Nat → Option (Node T)} {it : Iter T}
    {t : Nat} {nd : Node T} (h0 : ¬it.len = 0) (h1 : it.tail = some t)
    (h2 : heap t = some nd) :
    Iter.next_back heap it
      = (some nd.data.as_ref, { head := it.head, tail := nd.prev, len := it.len - 1 }) := by
  unfold Iter.next_back
  rw [if_neg h0, h1]
  dsimp only
  rw [h2]

/-- A fresh iterator over a state with a chain satisfies the segment
invariant for the whole chain. -/
theorem seg_of_inv {T : Type} {s : LinkedList T} {addrs : List Nat} {vals : List T}
    (h : Inv s addrs vals) : SegInv s.heap s.iter addrs vals := by
  refine ⟨h.lenA, h.lenS, fun _ => h.headEq, fun _ => h.tailEq, ?_⟩
  intro i a v ha hv
  refine ⟨_, h.chain i a v ha hv, rfl, fun _ => rfl, ?_⟩
  intro hi
  show prevAt addrs i = addrs[i - 1]?
  unfold prevAt
  rw [if_neg (by omega)]

/-- Advancing a live iterator from the front yields the first remaining
value and keeps the segment invariant on the rest. -/
theorem seg_next {T : Type} {heap : Nat → Option (Node T)} {it : Iter T}
    {addrs : List Nat} {vals : List T} (h : SegInv heap it addrs vals) (hne : vals ≠ []) :
    (Iter.next heap it).1 = vals[0]? ∧
      SegInv heap (Iter.next heap it).2 addrs.tail vals.tail := by
  have hlav := h.lenA
  have hvpos : 1 ≤ vals.length := List.length_pos.mpr hne
  have h0 : ¬it.len = 0 := by
    rw [h.lenI]
    omega
  obtain ⟨t, htidx⟩ : ∃ t, addrs[0]? = some t := ⟨_, List.getElem?_eq_getElem (by omega)⟩
  obtain ⟨v0, hvidx⟩ : ∃ v0, vals[0]? = some v0 := ⟨_, List.getElem?_eq_getElem (by omega)⟩
  have hhead : it.head = some t := (h.headEq hne).trans htidx
  obtain ⟨nd, hnd, hdata, hnextc, _⟩ := h.chain 0 t v0 htidx hvidx
  have hstep := iter_next_some h0 hhead hnd
  rw [hstep]
  constructor
  · dsimp only
    rw [hdata, hvidx]
    rfl
  · refine ⟨by simp [hlav], ?_, ?_, ?_, ?_⟩
    · dsimp only
      rw [h.lenI]
      simp
    · intro htne
      have hv2 : 2 ≤ vals.length := by
        have hx : vals.tail.length ≠ 0 := fun hh => htne (List.length_eq_zero.mp hh)
        rw [List.length_tail] at hx
        omega
      dsimp only
      rw [hnextc (by omega), List.getElem?_tail]
    · intro htne
      have hv2 : 2 ≤ vals.length := by
        have hx : vals.tail.length ≠ 0 := fun hh => htne (List.length_eq_zero.mp hh)
        rw [List.length_tail] at hx
        omega
      dsimp only
      rw [h.tailEq hne, List.getLast?_eq_getElem?, List.getLast?_eq_getElem?,
        List.getElem?_tail, List.length_tail]
      have he : addrs.length - 1 - 1 + 1 = addrs.length - 1 := by omega
      rw [he]
    · intro i a v ha hv
      rw [List.getElem?_tail] at ha hv
      obtain ⟨nd2, hnd2, hdata2, hnext2, hprev2⟩ := h.chain (i + 1) a v ha hv
      refine ⟨nd2, hnd2, hdata2, ?_, ?_⟩
      · intro hi
        rw [List.length_tail] at hi
        rw [hnext2 (by omega), List.getElem?_tail]
      · intro hi
        rw [hprev2 (by omega), List.getElem?_tail]
        have he : i - 1 + 1 = i + 1 - 1 := by omega
        rw [he]

/-- Advancing a live iterator from the back yields the last remaining value
and keeps the segment invariant on the rest. -/
theorem seg_next_back {T : Type} {heap : Nat → Option (Node T)} {it : Iter T}
    {addrs : List Nat} {vals : List T} (h : SegInv heap it addrs vals) (hne : vals ≠ []) :
    (Iter.next_back heap it).1 = vals.getLast? ∧
      SegInv heap (Iter.next_back heap it).2 addrs.dropLast vals.dropLast := by
  have hlav := h.lenA
  have hvpos : 1 ≤ vals.length := List.length_pos.mpr hne
  have hapos : 1 ≤ addrs.length := by omega
  have haddrs_ne : addrs ≠ [] := List.length_pos.mp hapos
  have h0 : ¬it.len = 0 := by
    rw [h.lenI]
    omega
  obtain ⟨t, htlast⟩ := Option.isSome_iff_exists.mp (List.getLast?_isSome.mpr haddrs_ne)
  have htidx : addrs[addrs.length - 1]? = some t := by
    rw [← List.getLast?_eq_getElem?]
    exact htlast
  obtain ⟨vl, hvidx⟩ : ∃ vl, vals[addrs.length - 1]? = some vl :=
    ⟨_, List.getElem?_eq_getElem (by omega)⟩
  have hglast : vals.getLast? = some vl := by
    rw [List.getLast?_eq_getElem?, ← hlav]
    exact hvidx
  have htail : it.tail = some t := (h.tailEq hne).trans htlast
  obtain ⟨nd, hnd, hdata, _, hprevc⟩ := h.chain (addrs.length - 1) t vl htidx hvidx
  have hstep := iter_next_back_some h0 htail hnd
  rw [hstep]
  constructor
  · dsimp only
    rw [hdata, hglast]
    rfl
  · refine ⟨by simp [hlav], ?_, ?_, ?_, ?_⟩
    · dsimp only
      rw [h.lenI]
      simp
    · intro hdne
      have hv2 : 2 ≤ vals.length := by
        have hx : vals.dropLast.length ≠ 0 := fun hh => hdne (List.length_eq_zero.mp hh)
        rw [List.length_dropLast] at hx
        omega
      dsimp only
      rw [h.headEq hne, List.getElem?_dropLast, if_pos (by omega)]
    · intro hdne
      have hv2 : 2 ≤ vals.length := by
        have hx : vals.dropLast.length ≠ 0 := fun hh => hdne (List.length_eq_zero.mp hh)
        rw [List.length_dropLast] at hx
        omega
      dsimp only
      rw [hprevc (by omega), List.getLast?_eq_getElem?, List.getElem?_dropLast,
        List.length_dropLast, if_pos (by omega)]
    · intro i a v ha hv
      rw [List.getElem?_dropLast] at ha hv
      by_cases hilt : i < addrs.length - 1
      · rw [if_pos hilt] at ha
        rw [if_pos (by omega)] at hv
        obtain ⟨nd2, hnd2, hdata2, hnext2, hprev2⟩ := h.chain i a v ha hv
        refine ⟨nd2, hnd2, hdata2, ?_, ?_⟩
        · intro hi
          rw [List.length_dropLast] at hi
          rw [hnext2 (by omega), List.getElem?_dropLast, if_pos (by omega)]
        · intro hi
          rw [hprev2 hi, List.getElem?_dropLast, if_pos (by omega)]
      · rw [if_neg hilt] at ha
        exact absurd ha (by simp)

theorem runIterFull_cons_none {T : Type} {heap : Nat → Option (Node T)} {it it2 : Iter T}
    {b : Bool} (bs : List Bool)
    (hstep : (if b then Iter.next heap it else Iter.next_back heap it) = (none, it2)) :
    runIterFull heap it (b :: bs) = runIterFull heap it2 bs := by
  conv_lhs => unfold runIterFull
  rw [hstep]

theorem runIterFull_cons_some {T : Type} {heap : Nat → Option (Node T)} {it it2 : Iter T}
    {b : Bool} {v : T} (bs : List Bool)
    (hstep : (if b then Iter.next heap it else Iter.next_back heap it) = (some v, it2)) :
    runIterFull heap it (b :: bs)
      = (v :: (runIterFull heap it2 bs).1, (runIterFull heap it2 bs).2) := by
  conv_lhs => unfold runIterFull
  rw [hstep]

/-- Any interleaving of next and next_back calls yields exactly
min(calls, remaining) items. -/
theorem seg_run_length {T : Type} :
    ∀ (calls : List Bool) {heap : Nat → Option (Node T)} {it : Iter T}
      {addrs : List Nat} {vals : List T}, SegInv heap it addrs vals →
      (runIterFull heap it calls).1.length = min calls.length vals.length := by
  intro calls
  induction calls with
  | nil =>
    intro heap it addrs vals _
    simp [runIterFull]
  | cons b bs ih =>
    intro heap it addrs vals h
    by_cases hne : vals = []
    · subst hne
      have h0 : it.len = 0 := by simpa using h.lenI
      have hstep : (if b then Iter.next heap it else Iter.next_back heap it) = (none, it) := by
        cases b
        · exact iter_next_back_zero h0
        · exact iter_next_zero h0
      rw [runIterFull_cons_none bs hstep, ih h]
      simp
    · have hvpos : 1 ≤ vals.length := List.length_pos.mpr hne
      cases b
      · have hs := seg_next_back h hne
        obtain ⟨vl, hvl⟩ := Option.isSome_iff_exists.mp (List.getLast?_isSome.mpr hne)
        have h1 : (Iter.next_back heap it).1 = some vl := hs.1.trans hvl
        have hstep : (if false then Iter.next heap it else Iter.next_back heap it)
            = (some vl, (Iter.next_back heap it).2) := by
          show Iter.next_back heap it = _
          rw [← h1]
        rw [runIterFull_cons_some bs hstep]
        dsimp only
        simp only [List.length_cons]
        rw [ih hs.2, List.length_dropLast]
        omega
      · have hs := seg_next h hne
        obtain ⟨v0, hv0⟩ : ∃ v0, vals[0]? = some v0 :=
          ⟨_, List.getElem?_eq_getElem (by omega)⟩
        have h1 : (Iter.next heap it).1 = some v0 := hs.1.trans hv0
        have hstep : (if true then Iter.next heap it else Iter.next_back heap it)
            = (some v0, (Iter.next heap it).2) := by
          show Iter.next heap it = _
          rw [← h1]
        rw [runIterFull_cons_some bs hstep]
        dsimp only
        simp only [List.length_cons]
        rw [ih hs.2, List.length_tail]
        omega

/-- The segment invariant survives any interleaving of iterator calls. -/
theorem seg_run_seginv {T : Type} :
    ∀ (calls : List Bool) {heap : Nat → Option (Node T)} {it : Iter T}
      {addrs : List Nat} {vals : List T}, SegInv heap it addrs vals →
      ∃ addrs2 vals2, SegInv heap (runIterFull heap it calls).2 addrs2 vals2 := by
  intro calls
  induction calls with
  | nil =>
    intro heap it addrs vals h
    exact ⟨addrs, vals, h⟩
  | cons b bs ih =>
    intro heap it addrs vals h
    by_cases hne : vals = []
    · subst hne
      have h0 : it.len = 0 := by simpa using h.lenI
      have hstep : (if b then Iter.next heap it else Iter.next_back heap it) = (none, it) := by
        cases b
        · exact iter_next_back_zero h0
        · exact iter_next_zero h0
      rw [runIterFull_cons_none bs hstep]
      exact ih h
    · cases b
      · have hs := seg_next_back h hne
        obtain ⟨vl, hvl⟩ := Option.isSome_iff_exists.mp (List.getLast?_isSome.mpr hne)
        have h1 : (Iter.next_back heap it).1 = some vl := hs.1.trans hvl
        have hstep : (if false then Iter.next heap it else Iter.next_back heap it)
            = (some vl, (Iter.next_back heap it).2) := by
          show Iter.next_back heap it = _
          rw [← h1]
        rw [runIterFull_cons_some bs hstep]
        exact ih hs.2
      · have hs := seg_next h hne
        obtain ⟨v0, hv0⟩ : ∃ v0, vals[0]? = some v0 :=
          ⟨_, List.getElem?_eq_getElem (by simpa using List.length_pos.mpr hne)⟩
        have h1 : (Iter.next heap it).1 = some v0 := hs.1.trans hv0
        have hstep : (if true then Iter.next heap it else Iter.next_back heap it)
            = (some v0, (Iter.next heap it).2) := by
          show Iter.next heap it = _
          rw [← h1]
        rw [runIterFull_cons_some bs hstep]
        exact ih hs.2

/-- C1: for every value sequence v1..vn, push_back of the whole sequence on
a fresh list followed by n pop_front calls returns some v1, ..., some vn in
that order; symmetrically, push_front of the sequence followed by n
pop_back calls returns the same options in the same order. -/
theorem order_law (T : Type) (vs : List T) :
    pop_front_n (push_back_seq (LinkedList.with_device T) vs) vs.length = vs.map some ∧
    pop_back_n (push_front_seq (LinkedList.with_device T) vs) vs.length = vs.map some := by
  constructor
  · obtain ⟨a2, h2⟩ := inv_push_back_seq vs (inv_empty T)
    rw [List.nil_append] at h2
    exact pop_front_n_inv vs h2
  · obtain ⟨a2, h2⟩ := inv_push_front_seq vs (inv_empty T)
    rw [List.append_nil] at h2
    have hb := pop_back_n_inv vs.reverse h2
    rw [List.length_reverse, List.reverse_reverse] at hb
    exact hb

/-- C2: after any operation run from a fresh list in which every pop
returned a value, len equals the push count minus the pop count; and
popping an empty reachable list (len 0) returns none and leaves the whole
state, hence len, unchanged. -/
theorem length_invariant (T : Type) (ops : List (Op T)) :
    ((∀ r ∈ (runTrace (LinkedList.with_device T) ops).2, r ≠ none) →
      (runTrace (LinkedList.with_device T) ops).1.len = pushCount ops - popCount ops) ∧
    (∀ s : LinkedList T, Reachable s → s.len = 0 →
      s.pop_back = (none, s) ∧ s.pop_front = (none, s)) := by
  constructor
  · intro hall
    have hlen := trace_len ops (inv_empty T) hall
    simp only [List.length_nil] at hlen
    omega
  · intro s hs hlen
    obtain ⟨addrs, vals, hinv⟩ := reachable_inv hs
    have hv : vals = [] := List.length_eq_zero.mp (by rw [← hinv.lenS]; exact hlen)
    subst hv
    exact ⟨pop_back_empty hinv, pop_front_empty hinv⟩

/-- Witness for C2 at a concrete run: two pushes and one successful pop
leave len 2 - 1, and popping the still-empty list after a failed pop
returns none without change. -/
theorem length_invariant_witness :
    (runTrace (LinkedList.with_device Nat)
        [Op.push_back 1, Op.push_back 2, Op.pop_front]).1.len
      = pushCount [Op.push_back (1 : Nat), Op.push_back 2, Op.pop_front]
        - popCount [Op.push_back (1 : Nat), Op.push_back 2, Op.pop_front] ∧
    ((runOps (LinkedList.with_device Nat) [Op.pop_back]).pop_back
        = (none, runOps (LinkedList.with_device Nat) [Op.pop_back]) ∧
      (runOps (LinkedList.with_device Nat) [Op.pop_back]).pop_front
        = (none, runOps (LinkedList.with_device Nat) [Op.pop_back])) :=
  ⟨(length_invariant Nat [Op.push_back 1, Op.push_back 2, Op.pop_front]).1 (by decide),
   (length_invariant Nat []).2 _ ⟨[Op.pop_back], rfl⟩ (by decide)⟩

/-- C3: in every reachable state, head is absent iff len is 0, tail is
absent iff len is 0, and when len ≥ 1 following next len - 1 times from
head reaches tail and following prev len - 1 times from tail reaches
head. -/
theorem shape_invariant (T : Type) (s : LinkedList T) (hs : Reachable s) :
    (s.head = none ↔ s.len = 0) ∧ (s.tail = none ↔ s.len = 0) ∧
    (1 ≤ s.len →
      followNext s.heap s.head (s.len - 1) = s.tail ∧
      followPrev s.heap s.tail (s.len - 1) = s.head) := by
  obtain ⟨addrs, vals, h⟩ := reachable_inv hs
  have hlav := h.lenA
  have hlenS := h.lenS
  refine ⟨?_, ?_, ?_⟩
  · rw [h.headEq, hlenS]
    constructor
    · intro hh
      have := List.getElem?_eq_none_iff.mp hh
      omega
    · intro hh
      exact List.getElem?_eq_none (by omega)
  · rw [h.tailEq, hlenS]
    constructor
    · intro hh
      have he : addrs = [] := List.getLast?_eq_none_iff.mp hh
      rw [he] at hlav
      simpa using hlav.symm
    · intro hh
      rw [List.getLast?_eq_none_iff]
      exact List.length_eq_zero.mp (by omega)
  · intro hlen
    rw [hlenS] at hlen
    constructor
    · rw [h.headEq, h.tailEq, hlenS]
      rw [follow_next_inv h (vals.length - 1) 0 (by omega), List.getLast?_eq_getElem?]
      have he : 0 + (vals.length - 1) = addrs.length - 1 := by omega
      rw [he]
    · rw [h.tailEq, h.headEq, hlenS, List.getLast?_eq_getElem?]
      rw [follow_prev_inv h (vals.length - 1) (addrs.length - 1) (by omega) (by omega)]
      have he : addrs.length - 1 - (vals.length - 1) = 0 := by omega
      rw [he]

/-- Witness for C3 at the state reached by two push_back operations. -/
theorem shape_invariant_witness :
    followNext (runOps (LinkedList.with_device Nat) [Op.push_back 1, Op.push_back 2]).heap
        (runOps (LinkedList.with_device Nat) [Op.push_back 1, Op.push_back 2]).head
        ((runOps (LinkedList.with_device Nat) [Op.push_back 1, Op.push_back 2]).len - 1)
      = (runOps (LinkedList.with_device Nat) [Op.push_back 1, Op.push_back 2]).tail :=
  ((shape_invariant Nat _ ⟨[Op.push_back 1, Op.push_back 2], rfl⟩).2.2 (by decide)).1

/-- C4: iter over a list built by push_back of v1, v2, v3 yields v1, v2, v3
walking forward and v3, v2, v1 walking backward; and for every reachable
list and every interleaving of next and next_back calls, the number of
yielded items is min(number of calls, len), so the total is exactly len and
nothing more is yielded once the remaining count reaches zero, whichever
end last advanced. -/
theorem iteration_completeness (T : Type) (v1 v2 v3 : T) :
    (runIterFull (push_back_seq (LinkedList.with_device T) [v1, v2, v3]).heap
        (push_back_seq (LinkedList.with_device T) [v1, v2, v3]).iter
        [true, true, true]).1 = [v1, v2, v3] ∧
    (runIterFull (push_back_seq (LinkedList.with_device T) [v1, v2, v3]).heap
        (push_back_seq (LinkedList.with_device T) [v1, v2, v3]).iter
        [false, false, false]).1 = [v3, v2, v1] ∧
    ∀ (s : LinkedList T), Reachable s → ∀ calls : List Bool,
      (runIterFull s.heap s.iter calls).1.length = min calls.length s.len := by
  refine ⟨rfl, rfl, ?_⟩
  intro s hs calls
  obtain ⟨addrs, vals, h⟩ := reachable_inv hs
  rw [seg_run_length calls (seg_of_inv h), h.lenS]

/-- Witness for C4 at a one-element list with a mixed interleaving. -/
theorem iteration_completeness_witness :
    (runIterFull (runOps (LinkedList.with_device Nat) [Op.push_back 7]).heap
        (runOps (LinkedList.with_device Nat) [Op.push_back 7]).iter [true, false]).1.length
      = min [true, false].length (runOps (LinkedList.with_device Nat) [Op.push_back 7]).len :=
  (iteration_completeness Nat 0 0 0).2.2 _ ⟨[Op.push_back 7], rfl⟩ [true, false]

/-- C5 as stated is false: for the sequence [1, 2], push_front then two
pop_back calls yields [some 1, some 2], which is not the reverse of the
[some 1, some 2] that push_back then two pop_front calls yields. -/
theorem symmetry_counterexample :
    pop_back_n (push_front_seq (LinkedList.with_device Nat) [1, 2]) 2
      ≠ (pop_front_n (push_back_seq (LinkedList.with_device Nat) [1, 2]) 2).reverse := by
  decide

/-- C5 amended: push_front of a sequence followed by popping everything
with pop_back produces the same result sequence as push_back of that
sequence followed by popping everything with pop_front (both return the
pushed values in their original order). -/
theorem symmetry_law (T : Type) (vs : List T) :
    pop_back_n (push_front_seq (LinkedList.with_device T) vs) vs.length
      = pop_front_n (push_back_seq (LinkedList.with_device T) vs) vs.length := by
  obtain ⟨a2, h2⟩ := inv_push_front_seq vs (inv_empty T)
  rw [List.append_nil] at h2
  obtain ⟨a3, h3⟩ := inv_push_back_seq vs (inv_empty T)
  rw [List.nil_append] at h3
  have hb := pop_back_n_inv vs.reverse h2
  rw [List.length_reverse, List.reverse_reverse] at hb
  rw [hb, pop_front_n_inv vs h3]

/-- C6: dropping a reachable non-empty list destroys every remaining value
exactly once, in tail-to-head order: the destruction sequence of the drop
loop is the reverse of the abstract head-to-tail value sequence. -/
theorem teardown_order (T : Type) (s : LinkedList T) (hs : Reachable s)
    (_hne : s.len ≠ 0) : dropSeq s = (toList s).reverse := by
  obtain ⟨addrs, vals, h⟩ := reachable_inv hs
  unfold dropSeq
  rw [toList_inv h]
  exact dropLoop_inv vals h (s.len + 1) (by rw [h.lenS]; omega)

/-- Witness for C6 at a two-element list. -/
theorem teardown_order_witness :
    dropSeq (runOps (LinkedList.with_device Nat) [Op.push_back 1, Op.push_back 2])
      = (toList (runOps (LinkedList.with_device Nat)
          [Op.push_back 1, Op.push_back 2])).reverse :=
  teardown_order Nat _ ⟨[Op.push_back 1, Op.push_back 2], rfl⟩ (by decide)

/-- C7: from any reachable state, push_back of v immediately followed by
pop_back returns some v, restores len to its value before the push, and
leaves the abstract value sequence exactly as it was. -/
theorem stack_law (T : Type) (s : LinkedList T) (v : T) (hs : Reachable s) :
    ((s.push_back v).pop_back).1 = some v ∧
    ((s.push_back v).pop_back).2.len = s.len ∧
    toList ((s.push_back v).pop_back).2 = toList s := by
  obtain ⟨addrs, vals, h⟩ := reachable_inv hs
  have hpush := inv_push_back h v
  have hpop := inv_pop_back hpush (by simp)
  have h1 : ((s.push_back v).pop_back).1 = some v := by
    rw [hpop.1, List.getLast?_concat]
  have h2 := hpop.2
  simp only [List.dropLast_concat] at h2
  refine ⟨h1, ?_, ?_⟩
  · rw [h2.lenS, h.lenS]
  · rw [toList_inv h2, toList_inv h]

/-- Witness for C7 at a one-element list. -/
theorem stack_law_witness :
    (((runOps (LinkedList.with_device Nat) [Op.push_front 4]).push_back 9).pop_back).1
        = some 9 ∧
    (((runOps (LinkedList.with_device Nat) [Op.push_front 4]).push_back 9).pop_back).2.len
        = (runOps (LinkedList.with_device Nat) [Op.push_front 4]).len ∧
    toList (((runOps (LinkedList.with_device Nat) [Op.push_front 4]).push_back 9).pop_back).2
        = toList (runOps (LinkedList.with_device Nat) [Op.push_front 4]) :=
  stack_law Nat _ 9 ⟨[Op.push_front 4], rfl⟩

/-- C8 as stated is false: with a failing allocator, push_back on a fresh
list panics (the unwrap inside GpuBox::new) instead of surfacing an
AllocationError value to its immediate caller, and likewise push_front. -/
theorem alloc_error_counterexample :
    (LinkedList.push_back_alloc false (LinkedList.with_device Nat) 0).isErr = false ∧
    LinkedList.push_back_alloc false (LinkedList.with_device Nat) 0
      = PushOutcome.panicked (LinkedList.with_device Nat) ∧
    (LinkedList.push_front_alloc false (LinkedList.with_device Nat) 0).isErr = false ∧
    LinkedList.push_front_alloc false (LinkedList.with_device Nat) 0
      = PushOutcome.panicked (LinkedList.with_device Nat) :=
  ⟨rfl, rfl, rfl, rfl⟩

/-- C8 amended: when the allocator fails, push_back and push_front panic
before any link mutation, so the list observed at the panic point is
exactly the pre-push state (the push is atomic and no AllocationError is
returned to the caller); with a working allocator they complete as the
plain push operations, and pop, len and iteration involve no allocation
and have no failure path. -/
theorem alloc_failure_atomic (T : Type) (s : LinkedList T) (v : T) :
    LinkedList.push_back_alloc false s v = PushOutcome.panicked s ∧
    LinkedList.push_front_alloc false s v = PushOutcome.panicked s ∧
    LinkedList.push_back_alloc true s v = PushOutcome.ok (s.push_back v) ∧
    LinkedList.push_front_alloc true s v = PushOutcome.ok (s.push_front v) :=
  ⟨rfl, rfl, rfl, rfl⟩

/-- C9: for every iterator state reached from iter() of a reachable list by
any interleaving of next and next_back calls, size_hint returns (r, some r)
with equal bounds, and r is exactly the number of further items the
iterator will yield: any continuation of m more calls yields min(m, r)
items. -/
theorem size_hint_exact (T : Type) (s : LinkedList T) (hs : Reachable s)
    (calls : List Bool) :
    ∃ r, ((runIterFull s.heap s.iter calls).2).size_hint = (r, some r) ∧
      ∀ more : List Bool,
        (runIterFull s.heap ((runIterFull s.heap s.iter calls).2) more).1.length
          = min more.length r := by
  obtain ⟨addrs, vals, h⟩ := reachable_inv hs
  obtain ⟨a2, v2, h2⟩ := seg_run_seginv calls (seg_of_inv h)
  refine ⟨v2.length, ?_, ?_⟩
  · unfold Iter.size_hint
    rw [h2.lenI]
  · intro more
    exact seg_run_length more h2

/-- Witness for C9 after one forward step over a two-element list. -/
theorem size_hint_exact_witness :
    ∃ r, ((runIterFull (runOps (LinkedList.with_device Nat)
          [Op.push_back 1, Op.push_back 2]).heap
        (runOps (LinkedList.with_device Nat) [Op.push_back 1, Op.push_back 2]).iter
        [true]).2).size_hint = (r, some r) ∧
      ∀ more : List Bool,
        (runIterFull (runOps (LinkedList.with_device Nat)
            [Op.push_back 1, Op.push_back 2]).heap
          ((runIterFull (runOps (LinkedList.with_device Nat)
              [Op.push_back 1, Op.push_back 2]).heap
            (runOps (LinkedList.with_device Nat) [Op.push_back 1, Op.push_back 2]).iter
            [true]).2) more).1.length = min more.length r :=
  size_hint_exact Nat _ ⟨[Op.push_back 1, Op.push_back 2], rfl⟩ [true]

/-- C10: push and pop touch only the affected end of the abstract value
sequence: push_back appends the new value, push_front prepends it,
pop_back returns the last value and keeps the prefix unchanged, and
pop_front returns the first value and keeps the suffix unchanged. -/
theorem frame_effect (T : Type) (s : LinkedList T) (v : T) (hs : Reachable s) :
    toList (s.push_back v) = toList s ++ [v] ∧
    toList (s.push_front v) = v :: toList s ∧
    (s.pop_back).1 = (toList s).getLast? ∧
    toList (s.pop_back).2 = (toList s).dropLast ∧
    (s.pop_front).1 = (toList s).head? ∧
    toList (s.pop_front).2 = (toList s).tail := by
  obtain ⟨addrs, vals, h⟩ := reachable_inv hs
  rw [toList_inv h]
  refine ⟨?_, ?_, ?_, ?_, ?_, ?_⟩
  · exact toList_inv (inv_push_back h v)
  · exact toList_inv (inv_push_front h v)
  · by_cases hv : vals = []
    · subst hv
      rw [pop_back_empty h]
      rfl
    · exact (inv_pop_back h hv).1
  · by_cases hv : vals = []
    · subst hv
      rw [pop_back_empty h]
      exact toList_inv h
    · exact toList_inv (inv_pop_back h hv).2
  · by_cases hv : vals = []
    · subst hv
      rw [pop_front_empty h]
      rfl
    · rw [(inv_pop_front h hv).1, List.head?_eq_getElem?]
  · by_cases hv : vals = []
    · subst hv
      rw [pop_front_empty h]
      exact toList_inv h
    · exact toList_inv (inv_pop_front h hv).2

/-- Witness for C10 at a two-element list. -/
theorem frame_effect_witness :
    toList ((runOps (LinkedList.with_device Nat)
          [Op.push_back 1, Op.push_back 2]).push_back 5)
        = toList (runOps (LinkedList.with_device Nat) [Op.push_back 1, Op.push_back 2])
            ++ [5] ∧
    toList ((runOps (LinkedList.with_device Nat)
          [Op.push_back 1, Op.push_back 2]).push_front 5)
        = 5 :: toList (runOps (LinkedList.with_device Nat)
            [Op.push_back 1, Op.push_back 2]) ∧
    ((runOps (LinkedList.with_device Nat) [Op.push_back 1, Op.push_back 2]).pop_back).1
        = (toList (runOps (LinkedList.with_device Nat)
            [Op.push_back 1, Op.push_back 2])).getLast? ∧
    toList ((runOps (LinkedList.with_device Nat)
          [Op.push_back 1, Op.push_back 2]).pop_back).2
        = (toList (runOps (LinkedList.with_device Nat)
            [Op.push_back 1, Op.push_back 2])).dropLast ∧
    ((runOps (LinkedList.with_device Nat) [Op.push_back 1, Op.push_back 2]).pop_front).1
        = (toList (runOps (LinkedList.with_device Nat)
            [Op.push_back 1, Op.push_back 2])).head? ∧
    toList ((runOps (LinkedList.with_device Nat)
          [Op.push_back 1, Op.push_back 2]).pop_front).2
        = (toList (runOps (LinkedList.with_device Nat)
            [Op.push_back 1, Op.push_back 2])).tail :=
  frame_effect Nat _ 5 ⟨[Op.push_back 1, Op.push_back 2], rfl⟩

end GpuLinkedList
